import Mathlib

/-!
Verification development for the DISE-AI repository.

This file gives a shallow embedding in Lean 4 of the algorithmic core of the
repository (the `Utils`, `ColorAlgorithm` and `SummaryManager` members of
`src/services/logic.ts`, and the `ColorAlgorithm` object of
`src/components/AIColorAlgorithm.ts`), and proves or refutes the frozen
claims about it.

Modelling conventions:
* JavaScript numbers are modelled as exact rationals (`ℚ`).
* A comparison of a Euclidean distance `sqrt s` against a bound `t` is
  embedded by the equivalent rational comparison on squares
  (`sqrt s ≤ t ↔ 0 ≤ t ∧ s ≤ t ^ 2`, and `sqrt s > t ↔ t < 0 ∨ t ^ 2 < s`),
  so that every definition stays executable; in particular perpendicular
  distances are carried around as their squares.
* The `visited` set keyed by `"x,y"` strings is modelled as a list of
  coordinate pairs (string keys of distinct coordinates are distinct).
* The recursive `simplifyRDP`, which does not terminate for some negative
  epsilons, is embedded with an explicit fuel parameter and an `Option`
  result; `none` means the recursion did not finish within the given fuel.
-/

/-- A 2-D point `{x, y}` (the `Point` type of `src/types`). -/
structure Pt where
  x : ℚ
  y : ℚ
deriving DecidableEq, Repr

/-- The origin, used as a default value for (never taken) out-of-bounds reads. -/
def ptZero : Pt := ⟨0, 0⟩

instance : Inhabited Pt := ⟨ptZero⟩

/-- The `Box` type of `src/types`. -/
structure Box where
  x : ℚ
  y : ℚ
  w : ℚ
  h : ℚ
deriving DecidableEq, Repr

namespace ColorAlgorithm

/-- Function `ColorAlgorithm.colorMatch` from `src/services/logic.ts`:
`Math.sqrt((r-tr)^2 + (g-tg)^2 + (b-tb)^2) <= tol`.  The square root
comparison is embedded by the equivalent comparison of squares. -/
def colorMatch (r g b tr tg tb tol : ℚ) : Bool :=
  decide (0 ≤ tol ∧ (r - tr) ^ 2 + (g - tg) ^ 2 + (b - tb) ^ 2 ≤ tol ^ 2)

/-- Helper `getIndex` from `ColorAlgorithm.floodFill`: `(y * width + x) * 4`. -/
def getIndex (width x y : ℚ) : ℚ := (y * width + x) * 4

/-- Whether the pixel at `(x, y)` of the RGBA buffer `data` matches the
target colour within `tol` (the repeated
`colorMatch(data[idx], data[idx+1], data[idx+2], targetR, targetG, targetB, tol)`
pattern of `floodFill`). -/
def pixelMatch (data : ℚ → ℚ) (width : ℚ) (p : Pt)
    (targetR targetG targetB tol : ℚ) : Bool :=
  let idx := getIndex width p.x p.y
  colorMatch (data idx) (data (idx + 1)) (data (idx + 2)) targetR targetG targetB tol

/-- Bounds check `x >= 0 && x < width && y >= 0 && y < height` of `floodFill`. -/
def inBounds (width height : ℚ) (p : Pt) : Bool :=
  decide (0 ≤ p.x ∧ p.x < width ∧ 0 ≤ p.y ∧ p.y < height)

/-- The body of the inner `for (let x = start.x - 2; ...)` loop of the
5×5-window search in `floodFill`: the first in-bounds matching pixel of the
row `y` (the loop `break`s at the first match). -/
def rowFirstMatch (data : ℚ → ℚ) (width height : ℚ) (startX y : ℚ)
    (targetR targetG targetB tol : ℚ) : Option Pt :=
  ([startX - 2, startX - 1, startX, startX + 1, startX + 2].map fun x => Pt.mk x y).find?
    fun p => inBounds width height p && pixelMatch data width p targetR targetG targetB tol

/-- The outer `for (let y = start.y - 2; ...)` loop of the window search in
`floodFill`, with the `if (queue.length > 0) break;` check after each row.
State is `(visited, queue)`; a row's first match is appended to both.
Note that the loop stops as soon as `queue` is non-empty, which the caller
makes true from the start by initialising `queue = [start]`. -/
def windowScanLoop (data : ℚ → ℚ) (width height : ℚ)
    (startX : ℚ) (targetR targetG targetB tol : ℚ) :
    List ℚ → List Pt × List Pt → List Pt × List Pt
  | [], st => st
  | y :: ys, (visited, queue) =>
    let st :=
      match rowFirstMatch data width height startX y targetR targetG targetB tol with
      | some p => (visited ++ [p], queue ++ [p])
      | none => (visited, queue)
    if 0 < st.2.length then st
    else windowScanLoop data width height startX targetR targetG targetB tol ys st

/-- One step of the `while (queue.length > 0)` BFS loop of `floodFill`:
pop `current`, and absorb each unvisited, in-bounds, colour-matching
4-neighbour. -/
def bfsStep (data : ℚ → ℚ) (width height : ℚ) (targetR targetG targetB tol : ℚ)
    (current : Pt) (visited queue : List Pt) : List Pt × List Pt :=
  let neighbors : List Pt :=
    [⟨current.x, current.y - 1⟩, ⟨current.x, current.y + 1⟩,
     ⟨current.x - 1, current.y⟩, ⟨current.x + 1, current.y⟩]
  neighbors.foldl
    (fun vq n =>
      if inBounds width height n ∧ n ∉ vq.1 ∧
          pixelMatch data width n targetR targetG targetB tol then
        (vq.1 ++ [n], vq.2 ++ [n])
      else vq)
    (visited, queue)

/-- The `while (queue.length > 0)` BFS loop of `floodFill`, with fuel.
The queue is FIFO (`shift` from the front, `push` at the back). -/
def bfsLoop (data : ℚ → ℚ) (width height : ℚ) (targetR targetG targetB tol : ℚ) :
    ℕ → List Pt → List Pt → List Pt
  | 0, visited, _ => visited
  | _ + 1, visited, [] => visited
  | fuel + 1, visited, current :: rest =>
    let vq := bfsStep data width height targetR targetG targetB tol current visited rest
    bfsLoop data width height targetR targetG targetB tol fuel vq.1 vq.2

/-- Function `ColorAlgorithm.floodFill` from `src/services/logic.ts`.

Faithful to the source, including its control flow around the 5×5 window
search: `queue` is initialised to `[start]`, so the `if (queue.length > 0)
break;` after each row of the window stops the search after the very first
row, and the `if (queue.length === 0) return visited;` early return is
unreachable; moreover the original (non-matching) seed stays in the queue
and its neighbours are explored by the BFS. -/
def floodFill (data : ℚ → ℚ) (width height : ℚ) (start : Pt)
    (targetR targetG targetB tol : ℚ) (fuel : ℕ) : List Pt :=
  let visited : List Pt := []
  let queue : List Pt := [start]
  if pixelMatch data width start targetR targetG targetB tol then
    bfsLoop data width height targetR targetG targetB tol fuel (visited ++ [start]) queue
  else
    let rows : List ℚ :=
      [start.y - 2, start.y - 1, start.y, start.y + 1, start.y + 2]
    let vq := windowScanLoop data width height start.x targetR targetG targetB tol
      rows (visited, queue)
    if vq.2.length = 0 then vq.1
    else bfsLoop data width height targetR targetG targetB tol fuel vq.1 vq.2

end ColorAlgorithm

/-- The sort order used by both `convexHull` implementations:
`points.sort((a, b) => a.x - b.x || a.y - b.y)` in `src/services/logic.ts` and
`points.sort((a, b) => (a.x === b.x ? a.y - b.y : a.x - b.x))` in
`AIColorAlgorithm.ts` both sort ascending by `x`, ties broken by `y`. -/
def ptLe (a b : Pt) : Prop := a.x < b.x ∨ (a.x = b.x ∧ a.y ≤ b.y)

instance : DecidableRel ptLe := fun a b => by unfold ptLe; infer_instance

instance : IsTotal Pt ptLe := by
  constructor
  intro a b
  rcases lt_trichotomy a.x b.x with h | h | h
  · exact Or.inl (Or.inl h)
  · rcases le_total a.y b.y with h2 | h2
    · exact Or.inl (Or.inr ⟨h, h2⟩)
    · exact Or.inr (Or.inr ⟨h.symm, h2⟩)
  · exact Or.inr (Or.inl h)

instance : IsTrans Pt ptLe := by
  constructor
  intro a b c hab hbc
  rcases hab with h1 | ⟨h1, h1'⟩ <;> rcases hbc with h2 | ⟨h2, h2'⟩
  · exact Or.inl (h1.trans h2)
  · exact Or.inl (h2 ▸ h1)
  · exact Or.inl (h1 ▸ h2)
  · exact Or.inr ⟨h1.trans h2, h1'.trans h2'⟩

/-- The cross product `(a.x-o.x)*(b.y-o.y) - (a.y-o.y)*(b.x-o.x)` used by both
`convexHull` implementations. -/
def crossPt (o a b : Pt) : ℚ := (a.x - o.x) * (b.y - o.y) - (a.y - o.y) * (b.x - o.x)

/-- The `while (chain.length >= 2 && cross(...) <= 0) chain.pop()` loop of
`convexHull`.  The chain is kept in reverse order (head = most recently
pushed element). -/
def hullPop (p : Pt) : List Pt → List Pt
  | [] => []
  | [a] => [a]
  | b :: a :: rest => if crossPt a b p ≤ 0 then hullPop p (a :: rest) else b :: a :: rest

namespace ColorAlgorithm

/-- Function `ColorAlgorithm.convexHull` from `src/services/logic.ts`.

The source sorts its argument array **in place** (`points.sort(...)`) and
builds the hull from it; the state of the caller's array after the call is
modelled explicitly as the first component of the result, the returned hull
being the second component.  With fewer than 3 points the source returns the
array unsorted and unchanged. -/
def convexHull (points : List Pt) : List Pt × List Pt :=
  if points.length < 3 then (points, points)
  else
    let sortedPts := List.insertionSort ptLe points
    let lower := sortedPts.foldl (fun acc p => p :: hullPop p acc) []
    let upper := sortedPts.reverse.foldl (fun acc p => p :: hullPop p acc) []
    (sortedPts, lower.tail.reverse ++ upper.tail.reverse)

/-- Function `ColorAlgorithm.perpDist` from `src/services/logic.ts`, carried as its
square (see the file comment): the source returns
`Math.hypot(p.x - p1.x, p.y - p1.y)` when `dx === 0 && dy === 0`, and
`|dy*p.x - dx*p.y + p2.x*p1.y - p2.y*p1.x| / Math.hypot(dx, dy)` otherwise;
this definition returns the square of that value. -/
def perpDistSq (p p1 p2 : Pt) : ℚ :=
  let dx := p2.x - p1.x
  let dy := p2.y - p1.y
  if dx = 0 ∧ dy = 0 then (p.x - p1.x) ^ 2 + (p.y - p1.y) ^ 2
  else (dy * p.x - dx * p.y + p2.x * p1.y - p2.y * p1.x) ^ 2 / (dx ^ 2 + dy ^ 2)

end ColorAlgorithm

namespace AIColorAlgorithm

/-- Function `ColorAlgorithm.convexHull` from `src/components/AIColorAlgorithm.ts`:
identical to the logic implementation (same in-place sort, same monotone
chain); modelled the same way, with the post-call state of the argument
array as first component. -/
def convexHull (points : List Pt) : List Pt × List Pt :=
  if points.length < 3 then (points, points)
  else
    let sortedPts := List.insertionSort ptLe points
    let lower := sortedPts.foldl (fun acc p => p :: hullPop p acc) []
    let upper := sortedPts.reverse.foldl (fun acc p => p :: hullPop p acc) []
    (sortedPts, lower.tail.reverse ++ upper.tail.reverse)

/-- Function `ColorAlgorithm.perpendicularDistance` from
`src/components/AIColorAlgorithm.ts`, carried as its square.  The source
computes `area = |0.5*(p1.x*p2.y + p2.x*p.y + p.x*p1.y - p2.x*p1.y - p.x*p2.y
- p1.x*p.y)|`, `bottom = sqrt((p1.x-p2.x)^2 + (p1.y-p2.y)^2)` (or the
`normalLength` precomputed by `simplifyRDP`, which is the same value), and
returns `0` when `bottom === 0` and `area / bottom * 2` otherwise; this
definition returns the square of that value. -/
def perpendicularDistanceSq (p p1 p2 : Pt) : ℚ :=
  let areaTwiceSq :=
    (p1.x * p2.y + p2.x * p.y + p.x * p1.y - p2.x * p1.y - p.x * p2.y - p1.x * p.y) ^ 2
  let bottomSq := (p1.x - p2.x) ^ 2 + (p1.y - p2.y) ^ 2
  if bottomSq = 0 then 0 else areaTwiceSq / bottomSq

end AIColorAlgorithm

/-- The `for (let i = 1; i < end; i++)` scan of `simplifyRDP` looking for the
point of maximum perpendicular distance from the chord; parametrised by the
(squared) distance function of the implementation at hand.  Returns
`(dmaxSq, index)`; as in the source, `dmax` starts at `0` and `index` at `0`,
and the comparison `d > dmax` is strict (squares compare like the distances
themselves). -/
def rdpScan (perpSq : Pt → Pt → Pt → ℚ) (points : List Pt) : ℚ × ℕ :=
  let e := points.length - 1
  (List.range (e - 1)).foldl
    (fun acc k =>
      let i := k + 1
      let d := perpSq (points.getD i ptZero) (points.getD 0 ptZero) (points.getD e ptZero)
      if acc.1 < d then (d, i) else acc)
    (0, 0)

/-- The shared recursion of both `simplifyRDP` implementations, parametrised
by the squared perpendicular-distance function.  `fuel` bounds the recursion
depth (`none` = did not finish; the source recursion does not terminate for
some negative epsilons).  The test `dmax > epsilon` is embedded as
`epsilon < 0 ∨ epsilon^2 < dmaxSq`.  The recursive calls receive
`points.slice(0, index + 1)` and `points.slice(index, end + 1)` (the logic
implementation) resp. `points.slice(index)` (the AI implementation) — the
same list either way — and the results are joined as
`res1.slice(0, res1.length - 1).concat(res2)`. -/
def simplifyRDPWith (perpSq : Pt → Pt → Pt → ℚ) :
    ℕ → List Pt → ℚ → Option (List Pt)
  | 0, _, _ => none
  | fuel + 1, points, epsilon =>
    if points.length < 3 then some points
    else
      let s := rdpScan perpSq points
      if epsilon < 0 ∨ epsilon ^ 2 < s.1 then
        match simplifyRDPWith perpSq fuel (points.take (s.2 + 1)) epsilon,
            simplifyRDPWith perpSq fuel (points.drop s.2) epsilon with
        | some r1, some r2 => some (r1.dropLast ++ r2)
        | _, _ => none
      else
        some [points.headD ptZero, points.getLastD ptZero]

/-- Function `ColorAlgorithm.simplifyRDP` from `src/services/logic.ts` (base case
`points.length < 3`, distances by `perpDist`). -/
def ColorAlgorithm.simplifyRDP : ℕ → List Pt → ℚ → Option (List Pt) :=
  simplifyRDPWith ColorAlgorithm.perpDistSq

/-- Function `ColorAlgorithm.simplifyRDP` from `src/components/AIColorAlgorithm.ts`
(base case `points.length <= 2`, i.e. `< 3`; distances by
`perpendicularDistance` with the precomputed `normalLength`). -/
def AIColorAlgorithm.simplifyRDP : ℕ → List Pt → ℚ → Option (List Pt) :=
  simplifyRDPWith AIColorAlgorithm.perpendicularDistanceSq

namespace AIColorAlgorithm

/-- Constant `ColorAlgorithm.MODEL_SIZE` from `src/components/AIColorAlgorithm.ts`. -/
def MODEL_SIZE : ℕ := 256

/-- A read of the binarized mask array (`data[idx]` truthiness); out-of-range
reads yield `undefined`, i.e. falsy. -/
def maskAt (data : List Bool) (i : ℕ) : Bool := data.getD i false

/-- Function `ColorAlgorithm.extractEdgesFromMask` from
`src/components/AIColorAlgorithm.ts`: every interior "on" pixel with at least
one "off" 4-neighbour, in row-major scan order over
`y = 1 .. height-2`, `x = 1 .. width-2`. -/
def extractEdgesFromMask (data : List Bool) (width height : ℕ) : List Pt :=
  ((List.range' 1 (height - 1 - 1)).map fun y =>
    (List.range' 1 (width - 1 - 1)).filterMap fun x =>
      if maskAt data (y * width + x) ∧
          (¬ maskAt data ((y - 1) * width + x) ∨ ¬ maskAt data ((y + 1) * width + x) ∨
           ¬ maskAt data (y * width + x - 1) ∨ ¬ maskAt data (y * width + x + 1)) then
        some ⟨(x : ℚ), (y : ℚ)⟩
      else none).flatten

/-- JavaScript's `parseFloat(x.toFixed(1))` for a finite number `x`: round to
the nearest multiple of 1/10, halves rounded up (ECMAScript picks the larger
candidate on a tie). -/
def toFixed1 (x : ℚ) : ℚ := (⌊x * 10 + 1 / 2⌋ : ℚ) / 10

/-- The `whitePixels` counting loop of `scanFrame`:
`for (i = 0; i < len; i++) if (maskData[i]) whitePixels++`. -/
def countWhite (maskData : List Bool) : ℕ :=
  maskData.foldl (fun n b => if b then n + 1 else n) 0

/-- Function `ColorAlgorithm.scanFrame` from `src/components/AIColorAlgorithm.ts`,
starting after the classifier call: the external model plus binarization
(`predict`, `greater(0.5)`, `dataSync`) is an excluded collaborator, so the
binarized `maskData` and the scale factors `scaleX = width / MODEL_SIZE`,
`scaleY = height / MODEL_SIZE` are taken as inputs.  Returns
`{ area, polygon }`; `fuel` feeds the embedded `simplifyRDP` (`none` = the
simplification recursion did not finish, which cannot happen for its
epsilon `3.0 ≥ 0` and sufficient fuel). -/
def scanFrame (maskData : List Bool) (scaleX scaleY : ℚ) (fuel : ℕ) :
    Option (ℚ × List Pt) :=
  let whitePixels := countWhite maskData
  let realArea := (whitePixels : ℚ) * scaleX * scaleY
  if 20 < whitePixels then
    let edgePoints := extractEdgesFromMask maskData MODEL_SIZE MODEL_SIZE
    if 0 < edgePoints.length then
      let hullPoints := (convexHull edgePoints).2
      match simplifyRDP fuel (hullPoints.map fun p => ⟨p.x * scaleX, p.y * scaleY⟩) 3 with
      | some pts => some (toFixed1 realArea, pts)
      | none => none
    else some (toFixed1 realArea, [])
  else some (toFixed1 realArea, [])

end AIColorAlgorithm

namespace Utils

/-- Function `Utils.calculatePolygonArea` from `src/services/logic.ts`: the shoelace
sum over `i` of `points[i].x * points[j].y - points[j].x * points[i].y` with
`j = (i + 1) % n`, halved, in absolute value. -/
def calculatePolygonArea (points : List Pt) : ℚ :=
  let n := points.length
  |((List.range n).foldl
      (fun a i =>
        let j := (i + 1) % n
        a + ((points.getD i ptZero).x * (points.getD j ptZero).y -
             (points.getD j ptZero).x * (points.getD i ptZero).y))
      0) / 2|

end Utils

/-- The `AnnotationData` record of `src/types` (the fields the claims are
about).  `area` is stored as a string in the source and read back with
`parseFloat`; it is modelled as the parse result: `none` for a falsy or
unparsable string, `some q` for a string parsing to `q`. -/
structure AnnotationData where
  time : ℚ
  area : Option ℚ
  areaCategory : String
  polygon : List Pt
  box : Option Box
  srcDataUrl : String
  obs_pct : ℚ
deriving DecidableEq, Repr

/-- The placeholder record built by `SummaryManager.calculateStats` when no
valid record exists: `{time: 0, area: "0", areaCategory: "N/A", polygon: [],
box: null, srcDataUrl: "", obs_pct: 0}`. -/
def placeholderData : AnnotationData :=
  { time := 0, area := some 0, areaCategory := ("N/A"), polygon := [],
    box := none, srcDataUrl := (""), obs_pct := 0 }

instance : Inhabited AnnotationData := ⟨placeholderData⟩

/-- The `AnalysisStats` record of `src/types`.  The degenerate branch of
`calculateStats` carries an `error` string; the normal branch has no `error`
field (`none`). -/
structure AnalysisStats where
  error : Option String
  smallest : AnnotationData
  largest : AnnotationData
  obstructionPercent : ℚ
  voteScore : ℕ
deriving DecidableEq, Repr

namespace SummaryManager

/-- The filter `item.area && parseFloat(item.area) > 0` of `calculateStats`:
the area string is truthy and parses to a positive number. -/
def isValidData (d : AnnotationData) : Bool :=
  match d.area with
  | some q => decide (0 < q)
  | none => false

/-- Value `parseFloat(d.area)` for a record that passed the validity filter (the
sort comparator and the min/max reads of `calculateStats`). -/
def areaVal (d : AnnotationData) : ℚ := d.area.getD 0

/-- The sort order `(a, b) => parseFloat(a.area) - parseFloat(b.area)` of
`calculateStats` (ascending by parsed area). -/
def areaLe (a b : AnnotationData) : Prop := areaVal a ≤ areaVal b

instance : DecidableRel areaLe := fun a b => by unfold areaLe; infer_instance

instance : IsTotal AnnotationData areaLe := ⟨fun a b => le_total _ _⟩

instance : IsTrans AnnotationData areaLe := ⟨fun _ _ _ => le_trans⟩

/-- The error message of the degenerate branch of `calculateStats`. -/
def statsErrorMsg : String := "需要至少兩筆有效數據才能分析！"

/-- Function `SummaryManager.calculateStats` from `src/services/logic.ts`, on the
list of values of the annotations map. -/
def calculateStats (records : List AnnotationData) : AnalysisStats :=
  let validData := records.filter isValidData
  if validData.length < 2 then
    let singleData := if h : validData.length = 1 then validData.head (by
        intro hnil; rw [hnil] at h; simp at h)
      else placeholderData
    { error := some statsErrorMsg, smallest := singleData, largest := singleData,
      obstructionPercent := 0, voteScore := 0 }
  else
    let sorted := List.insertionSort areaLe validData
    let smallest := sorted.headD placeholderData
    let largest := sorted.getLastD placeholderData
    let minArea := areaVal smallest
    let maxArea := areaVal largest
    let obstructionPercent := if 0 < maxArea then (maxArea - minArea) / maxArea * 100 else 0
    let voteScore : ℕ :=
      if 75 < obstructionPercent then 2 else if 50 ≤ obstructionPercent then 1 else 0
    { error := none, smallest := smallest, largest := largest,
      obstructionPercent := obstructionPercent, voteScore := voteScore }

end SummaryManager

/-! ### List helper lemmas -/

theorem head?_take_of_pos {α : Type} (l : List α) (n : ℕ) (hn : 0 < n) :
    (l.take n).head? = l.head? := by
  cases l with
  | nil => simp
  | cons a t =>
    cases n with
    | zero => omega
    | succ m => simp [List.take_succ_cons]

theorem head?_append_left {α : Type} (l r : List α) (hl : l ≠ []) :
    (l ++ r).head? = l.head? := by
  cases l with
  | nil => exact absurd rfl hl
  | cons a t => simp

theorem getLast?_cons_of_ne_nil {α : Type} (a : α) (t : List α) (ht : t ≠ []) :
    (a :: t).getLast? = t.getLast? := by
  have : a :: t = [a] ++ t := rfl
  rw [this, List.getLast?_append_of_ne_nil _ ht]

theorem getLast?_drop_of_lt {α : Type} :
    ∀ (l : List α) (n : ℕ), n < l.length → (l.drop n).getLast? = l.getLast?
  | _, 0, _ => rfl
  | [], n + 1, h => by simp at h
  | a :: t, n + 1, h => by
    have hlen : n < t.length := by simpa using Nat.lt_of_succ_lt_succ h
    have ht : t ≠ [] := by
      intro hnil
      rw [hnil] at hlen
      simp at hlen
    rw [List.drop_succ_cons, getLast?_drop_of_lt t n hlen, getLast?_cons_of_ne_nil a t ht]

theorem head?_dropLast_of_two_le {α : Type} (l : List α) (h : 2 ≤ l.length) :
    l.dropLast.head? = l.head? := by
  match l, h with
  | a :: b :: t, _ => simp

theorem ne_nil_of_two_le_length {α : Type} (l : List α) (h : 2 ≤ l.length) : l ≠ [] := by
  intro hnil
  rw [hnil] at h
  simp at h

/-! ### Lemmas about the farthest-point scan of `simplifyRDP` -/

theorem foldl_argmax_snd_le (f : ℕ → ℚ) (B : ℕ) :
    ∀ (l : List ℕ) (acc : ℚ × ℕ), (∀ k ∈ l, k + 1 ≤ B) → acc.2 ≤ B →
      (l.foldl (fun acc k => if acc.1 < f k then (f k, k + 1) else acc) acc).2 ≤ B
  | [], acc, _, hacc => hacc
  | k :: ks, acc, hmem, hacc => by
    rw [List.foldl_cons]
    refine foldl_argmax_snd_le f B ks _ (fun j hj => hmem j (List.mem_cons_of_mem _ hj)) ?_
    by_cases hlt : acc.1 < f k
    · simpa [hlt] using hmem k (List.mem_cons_self k ks)
    · simpa [hlt] using hacc

theorem foldl_argmax_snd_pos (f : ℕ → ℚ) :
    ∀ (l : List ℕ) (acc : ℚ × ℕ), (0 < acc.1 → 1 ≤ acc.2) →
      (0 < (l.foldl (fun acc k => if acc.1 < f k then (f k, k + 1) else acc) acc).1 →
        1 ≤ (l.foldl (fun acc k => if acc.1 < f k then (f k, k + 1) else acc) acc).2)
  | [], acc, hacc => hacc
  | k :: ks, acc, hacc => by
    rw [List.foldl_cons]
    refine foldl_argmax_snd_pos f ks _ ?_
    by_cases hlt : acc.1 < f k
    · simp [hlt]
    · simpa [hlt] using hacc

theorem rdpScan_index_le (perpSq : Pt → Pt → Pt → ℚ) (points : List Pt)
    (h3 : 3 ≤ points.length) :
    (rdpScan perpSq points).2 ≤ points.length - 2 := by
  unfold rdpScan
  refine foldl_argmax_snd_le _ (points.length - 2) _ _ (fun k hk => ?_) (by omega)
  have := List.mem_range.mp hk
  omega

theorem rdpScan_index_pos (perpSq : Pt → Pt → Pt → ℚ) (points : List Pt)
    (hpos : 0 < (rdpScan perpSq points).1) :
    1 ≤ (rdpScan perpSq points).2 := by
  unfold rdpScan at hpos ⊢
  exact foldl_argmax_snd_pos _ _ _ (by simp) hpos

theorem getLast?_eq_some_getLastD {α : Type} :
    ∀ (l : List α) (d : α), l ≠ [] → l.getLast? = some (l.getLastD d)
  | [], _, h => absurd rfl h
  | [a], _, _ => rfl
  | a :: b :: t, d, _ => by
    rw [getLast?_cons_of_ne_nil a (b :: t) (by simp)]
    rw [getLast?_eq_some_getLastD (b :: t) d (by simp)]
    rfl

/-- Partial-correctness facts about the (generic) `simplifyRDP` recursion:
whenever it finishes, the head and the last element of the input survive, a
result of an input with at least two points has at least two points, and
short inputs are returned unchanged. -/
theorem rdp_some_spec (perpSq : Pt → Pt → Pt → ℚ) :
    ∀ (fuel : ℕ) (points : List Pt) (eps : ℚ) (r : List Pt),
      simplifyRDPWith perpSq fuel points eps = some r →
      r.head? = points.head? ∧ r.getLast? = points.getLast? ∧
        (2 ≤ points.length → 2 ≤ r.length) ∧ (points.length < 3 → r = points) := by
  intro fuel
  induction fuel with
  | zero =>
    intro points eps r h
    simp [simplifyRDPWith] at h
  | succ n ih =>
    intro points eps r h
    simp only [simplifyRDPWith] at h
    by_cases hlen : points.length < 3
    · rw [if_pos hlen] at h
      obtain rfl := Option.some.inj h
      exact ⟨rfl, rfl, fun h2 => h2, fun _ => rfl⟩
    · rw [if_neg hlen] at h
      have n3 : 3 ≤ points.length := by omega
      have hne : points ≠ [] := by
        intro hnil
        rw [hnil] at n3
        simp at n3
      have hidx : (rdpScan perpSq points).2 ≤ points.length - 2 :=
        rdpScan_index_le perpSq points n3
      by_cases hc : eps < 0 ∨ eps ^ 2 < (rdpScan perpSq points).1
      · rw [if_pos hc] at h
        split at h
        next r1 r2 heq1 heq2 =>
          obtain rfl := Option.some.inj h
          obtain ⟨ihh1, ihl1, ihlen1, ihid1⟩ := ih _ eps r1 heq1
          obtain ⟨ihh2, ihl2, ihlen2, ihid2⟩ := ih _ eps r2 heq2
          have hdrop2 : 2 ≤ (points.drop (rdpScan perpSq points).2).length := by
            rw [List.length_drop]
            omega
          have hr2len : 2 ≤ r2.length := ihlen2 hdrop2
          have hr2ne : r2 ≠ [] := ne_nil_of_two_le_length _ hr2len
          refine ⟨?_, ?_, ?_, ?_⟩
          · by_cases hidx0 : (rdpScan perpSq points).2 = 0
            · rw [hidx0] at ihid1 ihh2
              have hr1 : r1 = points.take (0 + 1) := by
                refine ihid1 ?_
                rw [List.length_take]
                omega
              obtain ⟨a, t, rfl⟩ : ∃ a t, points = a :: t := by
                cases points with
                | nil => exact absurd rfl hne
                | cons a t => exact ⟨a, t, rfl⟩
              rw [hr1]
              simp only [List.take_succ_cons, List.take_zero, List.dropLast_single,
                List.nil_append, List.drop_zero] at *
              exact ihh2
            · have h1pos : 1 ≤ (rdpScan perpSq points).2 := by omega
              have htk : 2 ≤ (points.take ((rdpScan perpSq points).2 + 1)).length := by
                rw [List.length_take]
                omega
              have hr1len : 2 ≤ r1.length := ihlen1 htk
              have hdl : r1.dropLast ≠ [] := by
                have : r1.dropLast.length = r1.length - 1 := List.length_dropLast r1
                intro hnil
                rw [hnil] at this
                simp at this
                omega
              rw [head?_append_left _ _ hdl, head?_dropLast_of_two_le _ hr1len, ihh1,
                head?_take_of_pos _ _ (by omega)]
          · rw [List.getLast?_append_of_ne_nil _ hr2ne, ihl2,
              getLast?_drop_of_lt _ _ (by omega)]
          · intro _
            rw [List.length_append]
            omega
          · intro hcon
            omega
        next heqs =>
          exact absurd h (by simp)
      · rw [if_neg hc] at h
        obtain rfl := Option.some.inj h
        refine ⟨?_, ?_, ?_, ?_⟩
        · obtain ⟨a, t, rfl⟩ : ∃ a t, points = a :: t := by
            cases points with
            | nil => exact absurd rfl hne
            | cons a t => exact ⟨a, t, rfl⟩
          rfl
        · rw [getLast?_eq_some_getLastD points ptZero hne]
          rfl
        · intro _
          simp
        · intro hcon
          omega

/-- Termination of the (generic) `simplifyRDP` recursion for non-negative
epsilon: fuel one larger than the list length always suffices, because
whenever the recursion splits, the split index lies strictly between the
first and the last position, so both slices are strictly shorter than the
input. -/
theorem rdp_terminates (perpSq : Pt → Pt → Pt → ℚ) (eps : ℚ) (heps : 0 ≤ eps) :
    ∀ (fuel : ℕ) (points : List Pt), points.length + 1 ≤ fuel →
      (simplifyRDPWith perpSq fuel points eps).isSome := by
  intro fuel
  induction fuel with
  | zero =>
    intro points h
    omega
  | succ n ih =>
    intro points h
    simp only [simplifyRDPWith]
    by_cases hlen : points.length < 3
    · rw [if_pos hlen]
      rfl
    · rw [if_neg hlen]
      have n3 : 3 ≤ points.length := by omega
      have hidx : (rdpScan perpSq points).2 ≤ points.length - 2 :=
        rdpScan_index_le perpSq points n3
      by_cases hc : eps < 0 ∨ eps ^ 2 < (rdpScan perpSq points).1
      · rw [if_pos hc]
        have hpos : 0 < (rdpScan perpSq points).1 := by
          rcases hc with hneg | hsq
          · exact absurd hneg (not_lt.mpr heps)
          · have : (0 : ℚ) ≤ eps ^ 2 := sq_nonneg eps
            linarith
        have h1 : 1 ≤ (rdpScan perpSq points).2 := rdpScan_index_pos perpSq points hpos
        have ht : (simplifyRDPWith perpSq n
            (points.take ((rdpScan perpSq points).2 + 1)) eps).isSome := by
          refine ih _ ?_
          rw [List.length_take]
          omega
        have hd : (simplifyRDPWith perpSq n
            (points.drop (rdpScan perpSq points).2) eps).isSome := by
          refine ih _ ?_
          rw [List.length_drop]
          omega
        obtain ⟨r1, he1⟩ := Option.isSome_iff_exists.mp ht
        obtain ⟨r2, he2⟩ := Option.isSome_iff_exists.mp hd
        rw [he1, he2]
        rfl
      · rw [if_neg hc]
        rfl

/-! ### The shoelace sum of `Utils.calculatePolygonArea` -/

/-- One term of the shoelace sum:
`points[i].x * points[j].y - points[j].x * points[i].y`. -/
def edgeTerm (p q : Pt) : ℚ := p.x * q.y - q.x * p.y

/-- The signed shoelace sum accumulated by the loop of
`Utils.calculatePolygonArea` (before halving and taking the absolute value). -/
def shoelaceSum (points : List Pt) : ℚ :=
  let n := points.length
  (List.range n).foldl
    (fun a i =>
      let j := (i + 1) % n
      a + ((points.getD i ptZero).x * (points.getD j ptZero).y -
           (points.getD j ptZero).x * (points.getD i ptZero).y))
    0

theorem calculatePolygonArea_eq_shoelace (points : List Pt) :
    Utils.calculatePolygonArea points = |shoelaceSum points / 2| := rfl

/-- The non-cyclic part of the shoelace sum: the sum of `edgeTerm` over
consecutive pairs. -/
def pathSum : List Pt → ℚ
  | [] => 0
  | [_] => 0
  | p :: q :: t => edgeTerm p q + pathSum (q :: t)

theorem edgeTerm_antisymm (p q : Pt) : edgeTerm p q = -edgeTerm q p := by
  unfold edgeTerm
  ring

theorem foldl_add_eq_sum (g : ℕ → ℚ) :
    ∀ (l : List ℕ) (c : ℚ), l.foldl (fun a i => a + g i) c = c + (l.map g).sum
  | [], c => by simp
  | i :: is, c => by
    rw [List.foldl_cons, foldl_add_eq_sum g is (c + g i), List.map_cons, List.sum_cons]
    ring

theorem pathSum_eq_range_sum :
    ∀ l : List Pt,
      ((List.range (l.length - 1)).map
        (fun i => edgeTerm (l.getD i ptZero) (l.getD (i + 1) ptZero))).sum = pathSum l
  | [] => by simp [pathSum]
  | [p] => by simp [pathSum]
  | p :: q :: t => by
    have hlen : (p :: q :: t).length - 1 = t.length + 1 := by simp
    rw [hlen, List.range_succ_eq_map, List.map_cons, List.sum_cons, List.map_map]
    have hmap :
        (List.range t.length).map
          ((fun i => edgeTerm ((p :: q :: t).getD i ptZero)
            ((p :: q :: t).getD (i + 1) ptZero)) ∘ Nat.succ) =
        (List.range ((q :: t).length - 1)).map
          (fun i => edgeTerm ((q :: t).getD i ptZero) ((q :: t).getD (i + 1) ptZero)) := by
      have ht : (q :: t).length - 1 = t.length := by simp
      rw [ht]
      refine List.map_congr_left fun i _ => ?_
      simp [Function.comp, List.getD_cons_succ]
    rw [hmap, pathSum_eq_range_sum (q :: t)]
    simp [pathSum, List.getD_cons_succ, List.getD_cons_zero]

theorem getLastD_cons_of_ne_nil {α : Type} (a : α) (t : List α) (d : α) (ht : t ≠ []) :
    (a :: t).getLastD d = t.getLastD d := by
  have h1 := getLast?_eq_some_getLastD (a :: t) d (by simp)
  have h2 := getLast?_eq_some_getLastD t d ht
  rw [getLast?_cons_of_ne_nil a t ht, h2] at h1
  exact (Option.some.inj h1).symm

theorem getLastD_append_single {α : Type} (t : List α) (a d : α) :
    (t ++ [a]).getLastD d = a := by
  have h1 := getLast?_eq_some_getLastD (t ++ [a]) d (by simp)
  rw [@List.getLast?_append_of_ne_nil _ t [a] (by simp)] at h1
  exact (Option.some.inj h1.symm)

theorem headD_append_left {α : Type} (t : List α) (r : List α) (d : α) (ht : t ≠ []) :
    (t ++ r).headD d = t.headD d := by
  cases t with
  | nil => exact absurd rfl ht
  | cons a s => rfl

theorem getLastD_reverse {α : Type} (l : List α) (d : α) :
    l.reverse.getLastD d = l.headD d := by
  cases l with
  | nil => rfl
  | cons a t =>
    rw [List.reverse_cons, getLastD_append_single]
    rfl

theorem headD_reverse {α : Type} (l : List α) (d : α) :
    l.reverse.headD d = l.getLastD d := by
  have := getLastD_reverse l.reverse d
  rw [List.reverse_reverse] at this
  exact this.symm

theorem pathSum_cons (a : Pt) (t : List Pt) (ht : t ≠ []) :
    pathSum (a :: t) = edgeTerm a (t.headD ptZero) + pathSum t := by
  cases t with
  | nil => exact absurd rfl ht
  | cons q s => rfl

theorem pathSum_append_single :
    ∀ (t : List Pt) (a : Pt), t ≠ [] →
      pathSum (t ++ [a]) = pathSum t + edgeTerm (t.getLastD ptZero) a
  | [], _, h => absurd rfl h
  | [x], a, _ => by
    simp [pathSum]
  | x :: y :: s, a, _ => by
    have hcons : (x :: y :: s) ++ [a] = x :: ((y :: s) ++ [a]) := rfl
    rw [hcons, pathSum_cons x ((y :: s) ++ [a]) (by simp),
      pathSum_append_single (y :: s) a (by simp),
      headD_append_left (y :: s) [a] ptZero (by simp),
      getLastD_cons_of_ne_nil x (y :: s) ptZero (by simp),
      pathSum_cons x (y :: s) (by simp)]
    ring

/-- The cyclic shoelace sum decomposes as the path sum plus the wrap-around
edge from the last point back to the first. -/
theorem shoelaceSum_eq_pathSum (l : List Pt) (hne : l ≠ []) :
    shoelaceSum l = pathSum l + edgeTerm (l.getLastD ptZero) (l.headD ptZero) := by
  obtain ⟨m, hm⟩ : ∃ m, l.length = m + 1 := by
    cases l with
    | nil => exact absurd rfl hne
    | cons a t => exact ⟨t.length, by simp⟩
  simp only [shoelaceSum]
  rw [hm, List.range_succ, List.foldl_append, List.foldl_cons, List.foldl_nil,
    foldl_add_eq_sum]
  have hmod : (m + 1) % (m + 1) = 0 := Nat.mod_self (m + 1)
  have hgetlast : l.getD m ptZero = l.getLastD ptZero := by
    have h1 := getLast?_eq_some_getLastD l ptZero hne
    have h2 : l.getLast? = l.get? m := (List.getLast?_eq_get? l).trans (by rw [hm]; rfl)
    have h3 : l.getD m ptZero = (l.get? m).getD ptZero := by rw [List.getD_eq_getD_get?]
    rw [h2] at h1
    rw [h3, h1]
    rfl
  have hgethead : l.getD 0 ptZero = l.headD ptZero := by
    cases l with
    | nil => exact absurd rfl hne
    | cons a t => rfl
  have hmap :
      ((List.range m).map fun i =>
        (l.getD i ptZero).x * (l.getD ((i + 1) % (m + 1)) ptZero).y -
        (l.getD ((i + 1) % (m + 1)) ptZero).x * (l.getD i ptZero).y).sum =
      pathSum l := by
    have hcongr :
        (List.range m).map (fun i =>
          (l.getD i ptZero).x * (l.getD ((i + 1) % (m + 1)) ptZero).y -
          (l.getD ((i + 1) % (m + 1)) ptZero).x * (l.getD i ptZero).y) =
        (List.range m).map (fun i =>
          edgeTerm (l.getD i ptZero) (l.getD (i + 1) ptZero)) := by
      refine List.map_congr_left fun i hi => ?_
      have : (i + 1) % (m + 1) = i + 1 :=
        Nat.mod_eq_of_lt (by have := List.mem_range.mp hi; omega)
      rw [this]
      rfl
    rw [hcongr]
    have : l.length - 1 = m := by omega
    rw [← this, pathSum_eq_range_sum l]
  rw [hmod, hmap, hgetlast, hgethead]
  unfold edgeTerm
  ring

/-- Rotating the point list by one leaves the cyclic shoelace sum unchanged. -/
theorem shoelaceSum_rotate_one (l : List Pt) :
    shoelaceSum (l.rotate 1) = shoelaceSum l := by
  cases l with
  | nil => rfl
  | cons a t =>
    cases t with
    | nil => simp [List.rotate_cons_succ]
    | cons b s =>
      have hrot : (a :: b :: s).rotate 1 = (b :: s) ++ [a] := by
        rw [List.rotate_cons_succ, List.rotate_zero]
      rw [hrot, shoelaceSum_eq_pathSum _ (by simp), shoelaceSum_eq_pathSum _ (by simp),
        pathSum_append_single (b :: s) a (by simp),
        getLastD_append_single (b :: s) a ptZero,
        headD_append_left (b :: s) [a] ptZero (by simp),
        pathSum_cons a (b :: s) (by simp),
        getLastD_cons_of_ne_nil a (b :: s) ptZero (by simp)]
      simp only [List.headD_cons]
      ring

theorem shoelaceSum_rotate (l : List Pt) (k : ℕ) :
    shoelaceSum (l.rotate k) = shoelaceSum l := by
  induction k with
  | zero => rw [List.rotate_zero]
  | succ n ih =>
    have : l.rotate (n + 1) = (l.rotate n).rotate 1 := by
      rw [List.rotate_rotate]
    rw [this, shoelaceSum_rotate_one, ih]

theorem pathSum_reverse : ∀ l : List Pt, pathSum l.reverse = -pathSum l
  | [] => by simp [pathSum]
  | [p] => by simp [pathSum]
  | p :: q :: t => by
    rw [List.reverse_cons, pathSum_append_single _ p (by simp),
      pathSum_reverse (q :: t), getLastD_reverse (q :: t) ptZero,
      pathSum_cons p (q :: t) (by simp)]
    rw [edgeTerm_antisymm ((q :: t).headD ptZero) p]
    ring

/-- Reversing the point list negates the cyclic shoelace sum. -/
theorem shoelaceSum_reverse (l : List Pt) :
    shoelaceSum l.reverse = -shoelaceSum l := by
  cases l with
  | nil => rfl
  | cons a t =>
    rw [shoelaceSum_eq_pathSum _ (by simp), shoelaceSum_eq_pathSum _ (by simp),
      pathSum_reverse (a :: t), getLastD_reverse (a :: t) ptZero,
      headD_reverse (a :: t) ptZero,
      edgeTerm_antisymm ((a :: t).headD ptZero) ((a :: t).getLastD ptZero)]
    ring

/-! ### Sorted-list helper lemmas -/

theorem headD_mem {α : Type} (l : List α) (d : α) (h : l ≠ []) : l.headD d ∈ l := by
  cases l with
  | nil => exact absurd rfl h
  | cons a t => exact List.mem_cons_self a t

theorem getLastD_mem {α : Type} : ∀ (l : List α) (d : α), l ≠ [] → l.getLastD d ∈ l
  | [], _, h => absurd rfl h
  | [a], _, _ => List.mem_cons_self a []
  | a :: b :: t, d, _ => by
    rw [getLastD_cons_of_ne_nil a (b :: t) d (by simp)]
    exact List.mem_cons_of_mem a (getLastD_mem (b :: t) d (by simp))

theorem sorted_headD_rel {α : Type} {r : α → α → Prop} [IsTotal α r] (d : α)
    (l : List α) (hs : l.Sorted r) (a : α) (ha : a ∈ l) : r (l.headD d) a := by
  cases l with
  | nil => simp at ha
  | cons x t =>
    rcases List.mem_cons.mp ha with rfl | hat
    · rcases total_of r a a with h | h <;> exact h
    · exact (List.sorted_cons.mp hs).1 a hat

theorem sorted_rel_getLastD {α : Type} {r : α → α → Prop} [IsTotal α r] :
    ∀ (l : List α) (d : α), l.Sorted r → ∀ a ∈ l, r a (l.getLastD d)
  | [], _, _, a, ha => by simp at ha
  | [x], _, _, a, ha => by
    obtain rfl : a = x := by simpa using ha
    rcases total_of r a a with h | h <;> exact h
  | x :: y :: t, d, hs, a, ha => by
    rw [getLastD_cons_of_ne_nil x (y :: t) d (by simp)]
    rcases List.mem_cons.mp ha with rfl | hat
    · exact (List.sorted_cons.mp hs).1 _
        (getLastD_mem (y :: t) d (by simp))
    · exact sorted_rel_getLastD (y :: t) d (List.sorted_cons.mp hs).2 a hat

/-! ### Facts about `SummaryManager.calculateStats` -/

namespace SummaryManager

theorem isValidData_pos {d : AnnotationData} (h : isValidData d = true) :
    0 < areaVal d := by
  unfold isValidData at h
  unfold areaVal
  cases harea : d.area with
  | none => rw [harea] at h; simp at h
  | some q => rw [harea] at h; simpa using of_decide_eq_true h

/-- The normal (≥ 2 valid records) branch of `calculateStats`, written out. -/
theorem calculateStats_normal_eq (records : List AnnotationData)
    (h : ¬ (records.filter isValidData).length < 2) :
    calculateStats records =
      { error := none,
        smallest := (List.insertionSort areaLe
          (records.filter isValidData)).headD placeholderData,
        largest := (List.insertionSort areaLe
          (records.filter isValidData)).getLastD placeholderData,
        obstructionPercent :=
          if 0 < areaVal ((List.insertionSort areaLe
              (records.filter isValidData)).getLastD placeholderData) then
            (areaVal ((List.insertionSort areaLe
                (records.filter isValidData)).getLastD placeholderData) -
             areaVal ((List.insertionSort areaLe
                (records.filter isValidData)).headD placeholderData)) /
            areaVal ((List.insertionSort areaLe
                (records.filter isValidData)).getLastD placeholderData) * 100
          else 0,
        voteScore :=
          if 75 < (if 0 < areaVal ((List.insertionSort areaLe
              (records.filter isValidData)).getLastD placeholderData) then
            (areaVal ((List.insertionSort areaLe
                (records.filter isValidData)).getLastD placeholderData) -
             areaVal ((List.insertionSort areaLe
                (records.filter isValidData)).headD placeholderData)) /
            areaVal ((List.insertionSort areaLe
                (records.filter isValidData)).getLastD placeholderData) * 100
          else 0) then 2
          else if 50 ≤ (if 0 < areaVal ((List.insertionSort areaLe
              (records.filter isValidData)).getLastD placeholderData) then
            (areaVal ((List.insertionSort areaLe
                (records.filter isValidData)).getLastD placeholderData) -
             areaVal ((List.insertionSort areaLe
                (records.filter isValidData)).headD placeholderData)) /
            areaVal ((List.insertionSort areaLe
                (records.filter isValidData)).getLastD placeholderData) * 100
          else 0) then 1 else 0 } := by
  simp only [calculateStats]
  rw [if_neg h]

end SummaryManager

theorem voteScore_val_cases (op : ℚ) :
    ((if 75 < op then (2 : ℕ) else if 50 ≤ op then 1 else 0) = 2 ↔ 75 < op) ∧
    ((if 75 < op then (2 : ℕ) else if 50 ≤ op then 1 else 0) = 1 ↔ (50 ≤ op ∧ op ≤ 75)) ∧
    ((if 75 < op then (2 : ℕ) else if 50 ≤ op then 1 else 0) = 0 ↔ op < 50) := by
  by_cases h1 : 75 < op
  · rw [if_pos h1]
    refine ⟨iff_of_true rfl h1, iff_of_false (by norm_num) ?_, iff_of_false (by norm_num) ?_⟩
    · intro hc
      linarith [hc.2]
    · intro hc
      linarith
  · rw [if_neg h1]
    by_cases h2 : 50 ≤ op
    · rw [if_pos h2]
      refine ⟨iff_of_false (by norm_num) h1,
        iff_of_true rfl ⟨h2, not_lt.mp h1⟩, iff_of_false (by norm_num) ?_⟩
      intro hc
      linarith
    · rw [if_neg h2]
      refine ⟨iff_of_false (by norm_num) h1, iff_of_false (by norm_num) ?_,
        iff_of_true rfl (not_le.mp h2)⟩
      intro hc
      exact h2 hc.1

/-- The two-record example of the claim: areas 100000 and 25000. -/
def statsRecA : AnnotationData :=
  { time := 0, area := some 100000, areaCategory := ("Max"), polygon := [],
    box := none, srcDataUrl := (""), obs_pct := 0 }

/-- The two-record example of the claim: areas 100000 and 25000. -/
def statsRecB : AnnotationData :=
  { time := 1, area := some 25000, areaCategory := ("Min"), polygon := [],
    box := none, srcDataUrl := (""), obs_pct := 0 }

/-- C2: on a collection with at least two records of positive parsed area,
`SummaryManager.calculateStats` takes the normal branch: `smallest` and
`largest` are valid records of minimal resp. maximal parsed area (the first
and last of the ascending sort), `obstructionPercent` is
`(largest - smallest) / largest * 100` (the `largest = 0` guard is never the
case here since valid areas are positive), and `voteScore` is `2` exactly for
`obstructionPercent > 75`, `1` exactly for `50 ≤ obstructionPercent ≤ 75`,
and `0` otherwise; on the concrete records with areas 100000 and 25000 the
result is `obstructionPercent = 75` and `voteScore = 1`. -/
theorem calculateStats_normal_spec (records : List AnnotationData)
    (h : 2 ≤ (records.filter SummaryManager.isValidData).length) :
    (SummaryManager.calculateStats records).error = none ∧
    (SummaryManager.calculateStats records).smallest ∈
      records.filter SummaryManager.isValidData ∧
    (SummaryManager.calculateStats records).largest ∈
      records.filter SummaryManager.isValidData ∧
    (∀ d ∈ records.filter SummaryManager.isValidData,
      SummaryManager.areaVal ((SummaryManager.calculateStats records).smallest) ≤
        SummaryManager.areaVal d ∧
      SummaryManager.areaVal d ≤
        SummaryManager.areaVal ((SummaryManager.calculateStats records).largest)) ∧
    0 < SummaryManager.areaVal ((SummaryManager.calculateStats records).largest) ∧
    (SummaryManager.calculateStats records).obstructionPercent =
      (SummaryManager.areaVal ((SummaryManager.calculateStats records).largest) -
        SummaryManager.areaVal ((SummaryManager.calculateStats records).smallest)) /
        SummaryManager.areaVal ((SummaryManager.calculateStats records).largest) * 100 ∧
    ((SummaryManager.calculateStats records).voteScore = 2 ↔
      75 < (SummaryManager.calculateStats records).obstructionPercent) ∧
    ((SummaryManager.calculateStats records).voteScore = 1 ↔
      (50 ≤ (SummaryManager.calculateStats records).obstructionPercent ∧
        (SummaryManager.calculateStats records).obstructionPercent ≤ 75)) ∧
    ((SummaryManager.calculateStats records).voteScore = 0 ↔
      (SummaryManager.calculateStats records).obstructionPercent < 50) ∧
    (SummaryManager.calculateStats [statsRecA, statsRecB]).obstructionPercent = 75 ∧
    (SummaryManager.calculateStats [statsRecA, statsRecB]).voteScore = 1 := by
  have hnl : ¬ (records.filter SummaryManager.isValidData).length < 2 := not_lt.mpr h
  rw [SummaryManager.calculateStats_normal_eq records hnl]
  have hs := List.sorted_insertionSort SummaryManager.areaLe
    (records.filter SummaryManager.isValidData)
  have hp := List.perm_insertionSort SummaryManager.areaLe
    (records.filter SummaryManager.isValidData)
  have hlen := hp.length_eq
  have hsne : List.insertionSort SummaryManager.areaLe
      (records.filter SummaryManager.isValidData) ≠ [] := by
    intro hnil
    rw [hnil] at hlen
    simp at hlen
    omega
  have hsmem : (List.insertionSort SummaryManager.areaLe
      (records.filter SummaryManager.isValidData)).headD placeholderData ∈
      records.filter SummaryManager.isValidData :=
    hp.subset (headD_mem _ _ hsne)
  have hlmem : (List.insertionSort SummaryManager.areaLe
      (records.filter SummaryManager.isValidData)).getLastD placeholderData ∈
      records.filter SummaryManager.isValidData :=
    hp.subset (getLastD_mem _ _ hsne)
  have hlpos : 0 < SummaryManager.areaVal ((List.insertionSort SummaryManager.areaLe
      (records.filter SummaryManager.isValidData)).getLastD placeholderData) :=
    SummaryManager.isValidData_pos (List.mem_filter.mp hlmem).2
  dsimp only
  rw [if_pos hlpos]
  refine ⟨rfl, hsmem, hlmem, ?_, hlpos, rfl, ?_, ?_, ?_,
    by norm_num [SummaryManager.calculateStats, SummaryManager.isValidData,
      SummaryManager.areaLe, SummaryManager.areaVal, statsRecA, statsRecB,
      List.insertionSort, List.orderedInsert, List.filter, placeholderData],
    by norm_num [SummaryManager.calculateStats, SummaryManager.isValidData,
      SummaryManager.areaLe, SummaryManager.areaVal, statsRecA, statsRecB,
      List.insertionSort, List.orderedInsert, List.filter, placeholderData]⟩
  · intro d hd
    have hdmem : d ∈ List.insertionSort SummaryManager.areaLe
        (records.filter SummaryManager.isValidData) := hp.mem_iff.mpr hd
    exact ⟨sorted_headD_rel placeholderData _ hs d hdmem,
      sorted_rel_getLastD _ placeholderData hs d hdmem⟩
  · exact (voteScore_val_cases _).1
  · exact (voteScore_val_cases _).2.1
  · exact (voteScore_val_cases _).2.2

/-- Witness for the previous theorem at the concrete two-record example. -/
theorem calculateStats_normal_spec_witness :
    2 ≤ ([statsRecA, statsRecB].filter SummaryManager.isValidData).length ∧
    (SummaryManager.calculateStats [statsRecA, statsRecB]).error = none := by
  have h : 2 ≤ ([statsRecA, statsRecB].filter SummaryManager.isValidData).length := by
    norm_num [SummaryManager.isValidData, statsRecA, statsRecB, List.filter]
  exact ⟨h, (calculateStats_normal_spec [statsRecA, statsRecB] h).1⟩

/-- C7: with fewer than two valid records, `SummaryManager.calculateStats`
returns (it is a total function here, mirroring the source, which only
builds and returns an object on this path) a stats object carrying the
non-empty error string, whose `smallest` and `largest` are the single valid
record when exactly one exists and the fully empty placeholder when none
does. -/
theorem calculateStats_degenerate_spec (records : List AnnotationData)
    (h : (records.filter SummaryManager.isValidData).length < 2) :
    (SummaryManager.calculateStats records).error = some SummaryManager.statsErrorMsg ∧
    SummaryManager.statsErrorMsg ≠ ("") ∧
    (∀ d, records.filter SummaryManager.isValidData = [d] →
      (SummaryManager.calculateStats records).smallest = d ∧
      (SummaryManager.calculateStats records).largest = d) ∧
    (records.filter SummaryManager.isValidData = [] →
      (SummaryManager.calculateStats records).smallest = placeholderData ∧
      (SummaryManager.calculateStats records).largest = placeholderData) := by
  refine ⟨?_, ?_, ?_, ?_⟩
  · simp only [SummaryManager.calculateStats]
    rw [if_pos h]
  · decide
  · intro d hd
    constructor <;> simp [SummaryManager.calculateStats, hd]
  · intro hnil
    constructor <;> simp [SummaryManager.calculateStats, hnil]

/-- Witness for the previous theorem on the empty collection. -/
theorem calculateStats_degenerate_spec_witness :
    (([] : List AnnotationData).filter SummaryManager.isValidData).length < 2 ∧
    (SummaryManager.calculateStats []).error = some SummaryManager.statsErrorMsg := by
  have h : (([] : List AnnotationData).filter SummaryManager.isValidData).length < 2 := by
    simp
  exact ⟨h, (calculateStats_degenerate_spec [] h).1⟩

/-- C8: on every input — degenerate or normal — the stats returned by
`SummaryManager.calculateStats` satisfy `0 ≤ obstructionPercent ≤ 100` and
`voteScore ∈ {0, 1, 2}`. -/
theorem calculateStats_invariants (records : List AnnotationData) :
    0 ≤ (SummaryManager.calculateStats records).obstructionPercent ∧
    (SummaryManager.calculateStats records).obstructionPercent ≤ 100 ∧
    ((SummaryManager.calculateStats records).voteScore = 0 ∨
     (SummaryManager.calculateStats records).voteScore = 1 ∨
     (SummaryManager.calculateStats records).voteScore = 2) := by
  by_cases h : (records.filter SummaryManager.isValidData).length < 2
  · simp only [SummaryManager.calculateStats]
    rw [if_pos h]
    norm_num
  · rw [SummaryManager.calculateStats_normal_eq records h]
    have hs := List.sorted_insertionSort SummaryManager.areaLe
      (records.filter SummaryManager.isValidData)
    have hp := List.perm_insertionSort SummaryManager.areaLe
      (records.filter SummaryManager.isValidData)
    have hlen := hp.length_eq
    have hsne : List.insertionSort SummaryManager.areaLe
        (records.filter SummaryManager.isValidData) ≠ [] := by
      intro hnil
      rw [hnil] at hlen
      simp at hlen
      omega
    have hsmem : (List.insertionSort SummaryManager.areaLe
        (records.filter SummaryManager.isValidData)).headD placeholderData ∈
        records.filter SummaryManager.isValidData :=
      hp.subset (headD_mem _ _ hsne)
    have hlmem : (List.insertionSort SummaryManager.areaLe
        (records.filter SummaryManager.isValidData)).getLastD placeholderData ∈
        records.filter SummaryManager.isValidData :=
      hp.subset (getLastD_mem _ _ hsne)
    have hlpos : 0 < SummaryManager.areaVal ((List.insertionSort SummaryManager.areaLe
        (records.filter SummaryManager.isValidData)).getLastD placeholderData) :=
      SummaryManager.isValidData_pos (List.mem_filter.mp hlmem).2
    have hspos : 0 < SummaryManager.areaVal ((List.insertionSort SummaryManager.areaLe
        (records.filter SummaryManager.isValidData)).headD placeholderData) :=
      SummaryManager.isValidData_pos (List.mem_filter.mp hsmem).2
    have hminmax : SummaryManager.areaVal ((List.insertionSort SummaryManager.areaLe
        (records.filter SummaryManager.isValidData)).headD placeholderData) ≤
        SummaryManager.areaVal ((List.insertionSort SummaryManager.areaLe
        (records.filter SummaryManager.isValidData)).getLastD placeholderData) :=
      sorted_rel_getLastD _ placeholderData hs _ (headD_mem _ _ hsne)
    dsimp only
    rw [if_pos hlpos]
    refine ⟨?_, ?_, ?_⟩
    · apply mul_nonneg (div_nonneg (by linarith) hlpos.le)
      norm_num
    · have h1 : (SummaryManager.areaVal ((List.insertionSort SummaryManager.areaLe
          (records.filter SummaryManager.isValidData)).getLastD placeholderData) -
          SummaryManager.areaVal ((List.insertionSort SummaryManager.areaLe
          (records.filter SummaryManager.isValidData)).headD placeholderData)) /
          SummaryManager.areaVal ((List.insertionSort SummaryManager.areaLe
          (records.filter SummaryManager.isValidData)).getLastD placeholderData) ≤ 1 := by
        rw [div_le_one hlpos]
        linarith
      have h2 := mul_le_mul_of_nonneg_right h1 (by norm_num : (0 : ℚ) ≤ 100)
      linarith
    · by_cases h75 : (75 : ℚ) < (SummaryManager.areaVal ((List.insertionSort SummaryManager.areaLe
          (records.filter SummaryManager.isValidData)).getLastD placeholderData) -
          SummaryManager.areaVal ((List.insertionSort SummaryManager.areaLe
          (records.filter SummaryManager.isValidData)).headD placeholderData)) /
          SummaryManager.areaVal ((List.insertionSort SummaryManager.areaLe
          (records.filter SummaryManager.isValidData)).getLastD placeholderData) * 100
      · rw [if_pos h75]
        tauto
      · rw [if_neg h75]
        by_cases h50 : (50 : ℚ) ≤ (SummaryManager.areaVal ((List.insertionSort
            SummaryManager.areaLe
            (records.filter SummaryManager.isValidData)).getLastD placeholderData) -
            SummaryManager.areaVal ((List.insertionSort SummaryManager.areaLe
            (records.filter SummaryManager.isValidData)).headD placeholderData)) /
            SummaryManager.areaVal ((List.insertionSort SummaryManager.areaLe
            (records.filter SummaryManager.isValidData)).getLastD placeholderData) * 100
        · rw [if_pos h50]
          tauto
        · rw [if_neg h50]
          tauto

/-- C3: whenever either `simplifyRDP` implementation returns a simplified
list (the fuel-indexed embedding returns `some`), its first element equals
the input's first point and its last element equals the input's last point:
neither endpoint is ever simplified away. -/
theorem simplifyRDP_preserves_endpoints
    (fuelL fuelA : ℕ) (ptsL ptsA rL rA : List Pt) (epsL epsA : ℚ)
    (hL : ColorAlgorithm.simplifyRDP fuelL ptsL epsL = some rL)
    (hA : AIColorAlgorithm.simplifyRDP fuelA ptsA epsA = some rA) :
    rL.head? = ptsL.head? ∧ rL.getLast? = ptsL.getLast? ∧
    rA.head? = ptsA.head? ∧ rA.getLast? = ptsA.getLast? := by
  obtain ⟨h1, h2, -, -⟩ :=
    rdp_some_spec ColorAlgorithm.perpDistSq fuelL ptsL epsL rL hL
  obtain ⟨h3, h4, -, -⟩ :=
    rdp_some_spec AIColorAlgorithm.perpendicularDistanceSq fuelA ptsA epsA rA hA
  exact ⟨h1, h2, h3, h4⟩

/-- The concrete triangle used by the simplification witnesses. -/
def rdpSample : List Pt := [⟨0, 0⟩, ⟨1, 1⟩, ⟨2, 0⟩]

/-- One-step unfolding of the fuel-indexed recursion (the successor-fuel
equation, for concrete evaluation). -/
theorem rdp_unfold_succ (perpSq : Pt → Pt → Pt → ℚ) (fuel : ℕ) (points : List Pt) (eps : ℚ) :
    simplifyRDPWith perpSq (fuel + 1) points eps =
      if points.length < 3 then some points
      else
        let s := rdpScan perpSq points
        if eps < 0 ∨ eps ^ 2 < s.1 then
          match simplifyRDPWith perpSq fuel (points.take (s.2 + 1)) eps,
              simplifyRDPWith perpSq fuel (points.drop s.2) eps with
          | some r1, some r2 => some (r1.dropLast ++ r2)
          | _, _ => none
        else some [points.headD ptZero, points.getLastD ptZero] := rfl

theorem rdpScan_rdpSample_logic :
    rdpScan ColorAlgorithm.perpDistSq rdpSample = (1, 1) := by
  norm_num [rdpScan, rdpSample, ColorAlgorithm.perpDistSq, ptZero, List.range_succ,
    List.range_zero, Prod.ext_iff]

theorem rdpScan_rdpSample_ai :
    rdpScan AIColorAlgorithm.perpendicularDistanceSq rdpSample = (1, 1) := by
  norm_num [rdpScan, rdpSample, AIColorAlgorithm.perpendicularDistanceSq, ptZero,
    List.range_succ, List.range_zero, Prod.ext_iff]

/-- Witness for endpoint preservation at a concrete run: both
implementations collapse the triangle to its two endpoints at ε = 10. -/
theorem simplifyRDP_preserves_endpoints_witness :
    ColorAlgorithm.simplifyRDP 4 rdpSample 10 = some [⟨0, 0⟩, ⟨2, 0⟩] ∧
    AIColorAlgorithm.simplifyRDP 4 rdpSample 10 = some [⟨0, 0⟩, ⟨2, 0⟩] ∧
    (([⟨0, 0⟩, ⟨2, 0⟩] : List Pt).head? = rdpSample.head? ∧
      ([⟨0, 0⟩, ⟨2, 0⟩] : List Pt).getLast? = rdpSample.getLast? ∧
      ([⟨0, 0⟩, ⟨2, 0⟩] : List Pt).head? = rdpSample.head? ∧
      ([⟨0, 0⟩, ⟨2, 0⟩] : List Pt).getLast? = rdpSample.getLast?) := by
  have hL : ColorAlgorithm.simplifyRDP 4 rdpSample 10 = some [⟨0, 0⟩, ⟨2, 0⟩] := by
    show simplifyRDPWith ColorAlgorithm.perpDistSq (3 + 1) rdpSample 10 = _
    rw [rdp_unfold_succ, if_neg (by simp [rdpSample])]
    simp only [rdpScan_rdpSample_logic]
    rw [if_neg (by norm_num)]
    simp [rdpSample]
  have hA : AIColorAlgorithm.simplifyRDP 4 rdpSample 10 = some [⟨0, 0⟩, ⟨2, 0⟩] := by
    show simplifyRDPWith AIColorAlgorithm.perpendicularDistanceSq (3 + 1) rdpSample 10 = _
    rw [rdp_unfold_succ, if_neg (by simp [rdpSample])]
    simp only [rdpScan_rdpSample_ai]
    rw [if_neg (by norm_num)]
    simp [rdpSample]
  exact ⟨hL, hA, simplifyRDP_preserves_endpoints 4 4 rdpSample rdpSample
    [⟨0, 0⟩, ⟨2, 0⟩] [⟨0, 0⟩, ⟨2, 0⟩] 10 10 hL hA⟩

/-- C10: for every ε ≥ 0 both `simplifyRDP` implementations terminate (fuel
`length + 1` always suffices for the fuel-indexed embedding), and whenever a
call recurses — the maximal (squared) distance exceeds ε² — the split index
lies strictly between the first index and the last index `length - 1`, so
both recursive calls receive strictly shorter lists. -/
theorem simplifyRDP_terminates_spec (eps : ℚ) (heps : 0 ≤ eps)
    (fuelL fuelA : ℕ) (ptsL ptsA : List Pt)
    (hfL : ptsL.length + 1 ≤ fuelL) (hfA : ptsA.length + 1 ≤ fuelA) :
    (ColorAlgorithm.simplifyRDP fuelL ptsL eps).isSome = true ∧
    (AIColorAlgorithm.simplifyRDP fuelA ptsA eps).isSome = true ∧
    (∀ pts : List Pt, 3 ≤ pts.length →
      eps ^ 2 < (rdpScan ColorAlgorithm.perpDistSq pts).1 →
      1 ≤ (rdpScan ColorAlgorithm.perpDistSq pts).2 ∧
      (rdpScan ColorAlgorithm.perpDistSq pts).2 ≤ pts.length - 2) ∧
    (∀ pts : List Pt, 3 ≤ pts.length →
      eps ^ 2 < (rdpScan AIColorAlgorithm.perpendicularDistanceSq pts).1 →
      1 ≤ (rdpScan AIColorAlgorithm.perpendicularDistanceSq pts).2 ∧
      (rdpScan AIColorAlgorithm.perpendicularDistanceSq pts).2 ≤ pts.length - 2) := by
  refine ⟨rdp_terminates ColorAlgorithm.perpDistSq eps heps fuelL ptsL hfL,
    rdp_terminates AIColorAlgorithm.perpendicularDistanceSq eps heps fuelA ptsA hfA,
    ?_, ?_⟩ <;>
  · intro pts h3 hgt
    exact ⟨rdpScan_index_pos _ pts (lt_of_le_of_lt (sq_nonneg eps) hgt),
      rdpScan_index_le _ pts h3⟩

/-- Witness for termination at a concrete run. -/
theorem simplifyRDP_terminates_witness :
    (0 : ℚ) ≤ 0 ∧ rdpSample.length + 1 ≤ 4 ∧
    (ColorAlgorithm.simplifyRDP 4 rdpSample 0).isSome = true ∧
    (AIColorAlgorithm.simplifyRDP 4 rdpSample 0).isSome = true := by
  refine ⟨le_refl 0, by simp [rdpSample], ?_, ?_⟩
  · exact (simplifyRDP_terminates_spec 0 (le_refl 0) 4 4 rdpSample rdpSample
      (by simp [rdpSample]) (by simp [rdpSample])).1
  · exact (simplifyRDP_terminates_spec 0 (le_refl 0) 4 4 rdpSample rdpSample
      (by simp [rdpSample]) (by simp [rdpSample])).2.1

/-- Counterexample for C5 as stated: on the zero-length chord `a = b = (0,0)`
with `p = (3,4)`, the AI implementation `perpendicularDistance` returns `0`
(squared `0`), not the straight-line distance `5` (squared `25`). -/
theorem perpendicularDistance_zero_chord_cex :
    AIColorAlgorithm.perpendicularDistanceSq ⟨3, 4⟩ ⟨0, 0⟩ ⟨0, 0⟩ ≠
      ((3 : ℚ) - 0) ^ 2 + ((4 : ℚ) - 0) ^ 2 := by
  norm_num [AIColorAlgorithm.perpendicularDistanceSq]

/-- C5 (amended): on a zero-length chord the logic implementation `perpDist`
degenerates to the straight-line distance from `p` to the endpoint, while the
AI implementation `perpendicularDistance` returns `0` (its zero-denominator
guard); stated on squared distances. -/
theorem perpDist_zero_chord (p a b : Pt) (hab : a = b) :
    ColorAlgorithm.perpDistSq p a b = (p.x - a.x) ^ 2 + (p.y - a.y) ^ 2 ∧
    AIColorAlgorithm.perpendicularDistanceSq p a b = 0 := by
  subst hab
  constructor
  · simp [ColorAlgorithm.perpDistSq]
  · simp [AIColorAlgorithm.perpendicularDistanceSq]

/-- Witness for the zero-chord behaviour at `p = (3,4)`, `a = b = (0,0)`. -/
theorem perpDist_zero_chord_witness :
    (⟨0, 0⟩ : Pt) = ⟨0, 0⟩ ∧
    (ColorAlgorithm.perpDistSq ⟨3, 4⟩ ⟨0, 0⟩ ⟨0, 0⟩ =
        ((3 : ℚ) - 0) ^ 2 + ((4 : ℚ) - 0) ^ 2 ∧
      AIColorAlgorithm.perpendicularDistanceSq ⟨3, 4⟩ ⟨0, 0⟩ ⟨0, 0⟩ = 0) :=
  ⟨rfl, perpDist_zero_chord ⟨3, 4⟩ ⟨0, 0⟩ ⟨0, 0⟩ rfl⟩

/-- Counterexample for C6 as stated: reversing the triangle (0,0),(1,0),(0,1)
does not negate `calculatePolygonArea` (both directions give 1/2; the source
takes `Math.abs`). -/
theorem calculatePolygonArea_reverse_cex :
    ¬ (Utils.calculatePolygonArea ([⟨0, 0⟩, ⟨1, 0⟩, ⟨0, 1⟩] : List Pt).reverse =
        - Utils.calculatePolygonArea [⟨0, 0⟩, ⟨1, 0⟩, ⟨0, 1⟩]) := by
  have h1 : Utils.calculatePolygonArea ([⟨0, 0⟩, ⟨1, 0⟩, ⟨0, 1⟩] : List Pt) = 1 / 2 := by
    norm_num [Utils.calculatePolygonArea, List.range_succ, ptZero, abs]
  have h2 : Utils.calculatePolygonArea ([⟨0, 0⟩, ⟨1, 0⟩, ⟨0, 1⟩] : List Pt).reverse = 1 / 2 := by
    norm_num [Utils.calculatePolygonArea, List.range_succ, ptZero, abs]
  rw [h1, h2]
  norm_num

/-- C6 (amended): `Utils.calculatePolygonArea` is invariant under every
cyclic rotation of the point list, and invariant (same value, not negated)
under reversal: the source wraps the signed shoelace sum — which reversal
does negate — in `Math.abs`. -/
theorem calculatePolygonArea_rotate_reverse (points : List Pt) (k : ℕ) :
    Utils.calculatePolygonArea (points.rotate k) = Utils.calculatePolygonArea points ∧
    Utils.calculatePolygonArea points.reverse = Utils.calculatePolygonArea points := by
  constructor
  · rw [calculatePolygonArea_eq_shoelace, calculatePolygonArea_eq_shoelace,
      shoelaceSum_rotate]
  · rw [calculatePolygonArea_eq_shoelace, calculatePolygonArea_eq_shoelace,
      shoelaceSum_reverse, neg_div, abs_neg]

/-- C9: both `convexHull` implementations sort the caller's array in place
(`points.sort(...)`): with at least 3 points, the argument array after the
call — modelled as the first component of the result — is a permutation of
the input arranged ascending by `x`, ties broken by `y`. -/
theorem convexHull_sorts_argument (ptsL ptsA : List Pt)
    (hL : 3 ≤ ptsL.length) (hA : 3 ≤ ptsA.length) :
    ((ColorAlgorithm.convexHull ptsL).1.Perm ptsL ∧
      (ColorAlgorithm.convexHull ptsL).1.Sorted ptLe) ∧
    ((AIColorAlgorithm.convexHull ptsA).1.Perm ptsA ∧
      (AIColorAlgorithm.convexHull ptsA).1.Sorted ptLe) := by
  constructor
  · simp only [ColorAlgorithm.convexHull]
    rw [if_neg (not_lt.mpr hL)]
    exact ⟨List.perm_insertionSort ptLe ptsL, List.sorted_insertionSort ptLe ptsL⟩
  · simp only [AIColorAlgorithm.convexHull]
    rw [if_neg (not_lt.mpr hA)]
    exact ⟨List.perm_insertionSort ptLe ptsA, List.sorted_insertionSort ptLe ptsA⟩

/-- The concrete triangle used by the hull witness. -/
def hullSample : List Pt := [⟨2, 0⟩, ⟨0, 1⟩, ⟨1, 5⟩]

/-- Witness for the in-place sort on a concrete 3-point array. -/
theorem convexHull_sorts_argument_witness :
    3 ≤ hullSample.length ∧
    ((ColorAlgorithm.convexHull hullSample).1.Perm hullSample ∧
      (ColorAlgorithm.convexHull hullSample).1.Sorted ptLe) ∧
    ((AIColorAlgorithm.convexHull hullSample).1.Perm hullSample ∧
      (AIColorAlgorithm.convexHull hullSample).1.Sorted ptLe) := by
  have h3 : 3 ≤ hullSample.length := by simp [hullSample]
  obtain ⟨ha, hb⟩ := convexHull_sorts_argument hullSample hullSample h3 h3
  exact ⟨h3, ha, hb⟩

/-- The BFS loop is inert on an empty queue, whatever the fuel. -/
theorem bfsLoop_queue_nil (data : ℚ → ℚ) (width height tr tg tb tol : ℚ) :
    ∀ (fuel : ℕ) (visited : List Pt),
      ColorAlgorithm.bfsLoop data width height tr tg tb tol fuel visited [] = visited
  | 0, _ => rfl
  | _ + 1, _ => rfl

/-- The failing input for C1: a 5×5 black RGBA image whose only white pixel
is (0, 2) (byte indices 40, 41, 42 = `(2*5+0)*4 ..`). -/
def bugImage : ℚ → ℚ := fun i => if i = 40 ∨ i = 41 ∨ i = 42 then 255 else 0

/-- C1 (failing input, evaluated): with seed (2,2), target white and
tolerance 0 on `bugImage`, the seed does not match, the pixel (0,2) lies in
the 5×5 window centred on the seed and matches the target exactly, yet
`floodFill` returns the empty region: the window search stops after the
first row (`y = 0`) because `queue` was initialised with the seed, so
`queue.length > 0` already holds, and the subsequent BFS from the
non-matching seed absorbs nothing. -/
theorem floodFill_window_bug :
    ColorAlgorithm.floodFill bugImage 5 5 ⟨2, 2⟩ 255 255 255 0 2 = [] ∧
    ColorAlgorithm.pixelMatch bugImage 5 ⟨0, 2⟩ 255 255 255 0 = true ∧
    ColorAlgorithm.inBounds 5 5 ⟨0, 2⟩ = true ∧
    ((2 : ℚ) - 2 ≤ 0 ∧ (0 : ℚ) ≤ 2 + 2 ∧ (2 : ℚ) - 2 ≤ 2 ∧ (2 : ℚ) ≤ 2 + 2) ∧
    ColorAlgorithm.pixelMatch bugImage 5 ⟨2, 2⟩ 255 255 255 0 = false := by
  refine ⟨?_, ?_, ?_, by norm_num, ?_⟩
  · show ColorAlgorithm.floodFill bugImage 5 5 ⟨2, 2⟩ 255 255 255 0 (1 + 1) = []
    norm_num [ColorAlgorithm.floodFill, ColorAlgorithm.windowScanLoop,
      ColorAlgorithm.rowFirstMatch, ColorAlgorithm.bfsLoop, ColorAlgorithm.bfsStep,
      ColorAlgorithm.pixelMatch, ColorAlgorithm.colorMatch, ColorAlgorithm.getIndex,
      ColorAlgorithm.inBounds, bugImage, List.find?]
  · norm_num [ColorAlgorithm.pixelMatch, ColorAlgorithm.colorMatch,
      ColorAlgorithm.getIndex, bugImage]
  · norm_num [ColorAlgorithm.inBounds]
  · norm_num [ColorAlgorithm.pixelMatch, ColorAlgorithm.colorMatch,
      ColorAlgorithm.getIndex, bugImage]

theorem countWhite_replicate_false :
    ∀ n : ℕ, AIColorAlgorithm.countWhite (List.replicate n false) = 0 := by
  intro n
  induction n with
  | zero => rfl
  | succ m ih =>
    rw [List.replicate_succ]
    have hstep : AIColorAlgorithm.countWhite (false :: List.replicate m false) =
        AIColorAlgorithm.countWhite (List.replicate m false) := rfl
    rw [hstep, ih]


/-- Function `scanFrame` written out (an `rfl` unfolding lemma, for concrete
evaluation). -/
theorem scanFrame_unfold (maskData : List Bool) (scaleX scaleY : ℚ) (fuel : ℕ) :
    AIColorAlgorithm.scanFrame maskData scaleX scaleY fuel =
      (if 20 < AIColorAlgorithm.countWhite maskData then
        (let edgePoints := AIColorAlgorithm.extractEdgesFromMask maskData
          AIColorAlgorithm.MODEL_SIZE AIColorAlgorithm.MODEL_SIZE
        if 0 < edgePoints.length then
          match AIColorAlgorithm.simplifyRDP fuel
              (((AIColorAlgorithm.convexHull edgePoints).2).map
                (fun p => ⟨p.x * scaleX, p.y * scaleY⟩)) 3 with
          | some pts => some (AIColorAlgorithm.toFixed1
              ((AIColorAlgorithm.countWhite maskData : ℚ) * scaleX * scaleY), pts)
          | none => none
        else some (AIColorAlgorithm.toFixed1
            ((AIColorAlgorithm.countWhite maskData : ℚ) * scaleX * scaleY), []))
      else some (AIColorAlgorithm.toFixed1
          ((AIColorAlgorithm.countWhite maskData : ℚ) * scaleX * scaleY), [])) := rfl

/-- Counterexample for C4 as stated: with a single "on" mask pixel and scale
factors 5/4 × 5/4, `scanFrame` returns area 8/5 = 1.6 — the source rounds
with `toFixed(1)` — while the claimed raw product
`count * scaleX * scaleY` is 25/16 = 1.5625. -/
theorem scanFrame_area_rounding_cex :
    AIColorAlgorithm.scanFrame [true] (5 / 4) (5 / 4) 1 = some (8 / 5, []) ∧
    (8 / 5 : ℚ) ≠ ((AIColorAlgorithm.countWhite [true] : ℚ)) * (5 / 4) * (5 / 4) := by
  have hcw : AIColorAlgorithm.countWhite [true] = 1 := rfl
  constructor
  · rw [scanFrame_unfold, hcw, if_neg (by norm_num)]
    norm_num [AIColorAlgorithm.toFixed1, Int.floor_eq_iff]
  · rw [hcw]
    norm_num

/-- C4 (amended): `scanFrame` reports `area = toFixed1(onCount * scaleX *
scaleY)` — the scaled "on"-pixel count rounded to one decimal place, never
derived from the polygon — and goes through edge extraction, hull and
simplification only when the count exceeds 20: at or below 20 the polygon is
`[]`; on an all-zero mask the result is `area = 0`, `polygon = []`. -/
theorem scanFrame_spec (maskData : List Bool) (scaleX scaleY : ℚ) (fuel : ℕ)
    (r : ℚ × List Pt)
    (h : AIColorAlgorithm.scanFrame maskData scaleX scaleY fuel = some r) :
    r.1 = AIColorAlgorithm.toFixed1
        ((AIColorAlgorithm.countWhite maskData : ℚ) * scaleX * scaleY) ∧
    (AIColorAlgorithm.countWhite maskData ≤ 20 → r.2 = []) ∧
    (20 < AIColorAlgorithm.countWhite maskData →
      0 < (AIColorAlgorithm.extractEdgesFromMask maskData AIColorAlgorithm.MODEL_SIZE
        AIColorAlgorithm.MODEL_SIZE).length →
      AIColorAlgorithm.simplifyRDP fuel
        (((AIColorAlgorithm.convexHull (AIColorAlgorithm.extractEdgesFromMask maskData
          AIColorAlgorithm.MODEL_SIZE AIColorAlgorithm.MODEL_SIZE)).2).map
          (fun p => ⟨p.x * scaleX, p.y * scaleY⟩)) 3 = some r.2) ∧
    (∀ (n : ℕ) (sx sy : ℚ) (f : ℕ),
      AIColorAlgorithm.scanFrame (List.replicate n false) sx sy f = some (0, [])) := by
  have hzero : ∀ (n : ℕ) (sx sy : ℚ) (f : ℕ),
      AIColorAlgorithm.scanFrame (List.replicate n false) sx sy f = some (0, []) := by
    intro n sx sy f
    simp only [AIColorAlgorithm.scanFrame, countWhite_replicate_false]
    rw [if_neg (by norm_num)]
    have : AIColorAlgorithm.toFixed1 ((0 : ℕ) * sx * sy) = 0 := by
      norm_num [AIColorAlgorithm.toFixed1, Int.floor_eq_iff]
    rw [this]
  rw [scanFrame_unfold] at h
  by_cases h20 : 20 < AIColorAlgorithm.countWhite maskData
  · rw [if_pos h20] at h
    by_cases hedge : 0 < (AIColorAlgorithm.extractEdgesFromMask maskData
        AIColorAlgorithm.MODEL_SIZE AIColorAlgorithm.MODEL_SIZE).length
    · rw [if_pos hedge] at h
      split at h
      next pts heq =>
        obtain rfl := Option.some.inj h
        refine ⟨rfl, fun hle => absurd h20 (not_lt.mpr hle), fun _ _ => heq, hzero⟩
      next heq =>
        exact absurd h (by simp)
    · rw [if_neg hedge] at h
      obtain rfl := Option.some.inj h
      exact ⟨rfl, fun _ => rfl, fun _ he => absurd he hedge, hzero⟩
  · rw [if_neg h20] at h
    obtain rfl := Option.some.inj h
    exact ⟨rfl, fun _ => rfl, fun hgt => absurd hgt h20, hzero⟩

/-- Witness for the amended `scanFrame` behaviour at the one-pixel mask. -/
theorem scanFrame_spec_witness :
    AIColorAlgorithm.scanFrame [true] (5 / 4) (5 / 4) 1 = some (8 / 5, []) ∧
    ((8 / 5 : ℚ), ([] : List Pt)).1 = AIColorAlgorithm.toFixed1
      ((AIColorAlgorithm.countWhite [true] : ℚ) * (5 / 4) * (5 / 4)) ∧
    (AIColorAlgorithm.countWhite [true] ≤ 20 →
      ((8 / 5 : ℚ), ([] : List Pt)).2 = []) := by
  have hcw : AIColorAlgorithm.countWhite [true] = 1 := rfl
  have heval : AIColorAlgorithm.scanFrame [true] (5 / 4) (5 / 4) 1 = some (8 / 5, []) := by
    rw [scanFrame_unfold, hcw, if_neg (by norm_num)]
    norm_num [AIColorAlgorithm.toFixed1, Int.floor_eq_iff]
  exact ⟨heval, (scanFrame_spec [true] (5 / 4) (5 / 4) 1 (8 / 5, []) heval).1,
    (scanFrame_spec [true] (5 / 4) (5 / 4) 1 (8 / 5, []) heval).2.1⟩
